import Mathlib

/-!
Verification of the pyClarion numdict operation library (`src/pyClarion/numdicts/ops.py`)
against its natural-language specification.

The container class `NumDict` itself (file `numdicts/numdicts.py`) and the helper
module `numdicts/funcs.py` are not part of the provided sources; their behaviour
is modelled from the specification (spec sections 3 and 4.1) where needed, and
each such definition is marked `Modelled from the spec:` in its doc comment.
Keys are modelled as natural numbers and float values as elements of an arbitrary
linear ordered field (instantiated at ℚ for executable claims and at ℝ for the
claims that need the exponential function).
-/

set_option maxHeartbeats 1000000
set_option linter.unusedSectionVars false

namespace PyClarion

/-- Modelled from the spec: the NumDict container (spec section 3; source file
`numdicts/numdicts.py` is absent from src/).  A NumDict is a sparse partial map
from keys to values together with an optional default.  `supp` is the set of
explicit keys, `map k` is `some v` exactly when `k` has an explicit entry `v`,
and `default` is the fallback value (`none` models Python `None`). -/
structure NumDict (V : Type) where
  supp : Finset ℕ
  map : ℕ → Option V
  coh : ∀ k, (map k).isSome ↔ k ∈ supp
  default : Option V

variable {V : Type} [Field V] [LinearOrder V] [DecidableEq V]

/-- Two NumDicts with the same explicit map and the same default are equal
(the support is determined by the map; spec section 4.1: equality is
insensitive to key insertion order). -/
theorem NumDict.ext_nd {d e : NumDict V} (hm : d.map = e.map)
    (hd : d.default = e.default) : d = e := by
  have hs : d.supp = e.supp := by
    ext k
    rw [← d.coh k, ← e.coh k, hm]
  cases d
  cases e
  simp only at hm hd hs
  subst hm
  subst hd
  subst hs
  rfl

/-- Modelled from the spec: `d[k]` lookup — the explicit value if present, the
default otherwise; `none` models the KeyError case (spec section 4.1). -/
def NumDict.get (d : NumDict V) (k : ℕ) : Option V :=
  (d.map k).orElse (fun _ => d.default)

/-- The explicit value at a key (meaningful only for `k ∈ d.supp`). -/
def NumDict.val (d : NumDict V) (k : ℕ) : V :=
  (d.map k).getD 0

/-- Build a NumDict from an explicit key set, a value function and a default
(the shape of every dict comprehension `{k: ... for k in d if ...}` in ops.py). -/
def NumDict.ofFun (s : Finset ℕ) (f : ℕ → V) (dflt : Option V) : NumDict V :=
  ⟨s, fun k => if k ∈ s then some (f k) else none,
    fun k => by by_cases h : k ∈ s <;> simp [h], dflt⟩

/-- The empty NumDict with a given default: Python `NumDict(default=...)`. -/
def emptyND (dflt : Option V) : NumDict V :=
  ⟨∅, fun _ => none, fun k => by simp, dflt⟩

/-- A single-entry NumDict with no default: Python `NumDict({key: result})`. -/
def singletonND (k : ℕ) (v : V) : NumDict V :=
  NumDict.ofFun {k} (fun _ => v) none

theorem NumDict.ofFun_supp (s : Finset ℕ) (f : ℕ → V) (dflt : Option V) :
    (NumDict.ofFun s f dflt).supp = s := rfl

theorem NumDict.ofFun_map (s : Finset ℕ) (f : ℕ → V) (dflt : Option V) (k : ℕ) :
    (NumDict.ofFun s f dflt).map k = if k ∈ s then some (f k) else none := rfl

theorem NumDict.ofFun_default (s : Finset ℕ) (f : ℕ → V) (dflt : Option V) :
    (NumDict.ofFun s f dflt).default = dflt := rfl

theorem NumDict.ofFun_val_of_mem {s : Finset ℕ} (f : ℕ → V) (dflt : Option V)
    {k : ℕ} (hk : k ∈ s) : (NumDict.ofFun s f dflt).val k = f k := by
  simp [NumDict.val, NumDict.ofFun, hk]

theorem NumDict.map_eq_some_val {d : NumDict V} {k : ℕ} (hk : k ∈ d.supp) :
    d.map k = some (d.val k) := by
  have h := (d.coh k).mpr hk
  rcases Option.isSome_iff_exists.mp h with ⟨v, hv⟩
  simp [NumDict.val, hv]

theorem NumDict.map_eq_none_of_not_mem {d : NumDict V} {k : ℕ} (hk : k ∉ d.supp) :
    d.map k = none := by
  by_contra h
  exact hk ((d.coh k).mp (Option.isSome_iff_ne_none.mpr h))

theorem NumDict.get_of_mem {d : NumDict V} {k : ℕ} (hk : k ∈ d.supp) :
    d.get k = some (d.val k) := by
  simp [NumDict.get, NumDict.map_eq_some_val hk, Option.orElse]

theorem NumDict.get_of_not_mem {d : NumDict V} {k : ℕ} (hk : k ∉ d.supp) :
    d.get k = d.default := by
  simp [NumDict.get, NumDict.map_eq_none_of_not_mem hk, Option.orElse]

/-- From ops.py, `threshold` (lines 74–79), the default of the result: when
`d.default` is not `None` it is `d.default if keep_default or th < d.default
else None`, and `None` otherwise. -/
def thresholdDefault (dflt : Option V) (th : V) (keep_default : Bool) : Option V :=
  match dflt with
  | some dv => if keep_default || decide (th < dv) then some dv else none
  | none => none

/-- From ops.py, `threshold` (lines 65–83): keep the explicit entries with
`th < d[k]`, with the default given by `thresholdDefault`. -/
def threshold (d : NumDict V) (th : V) (keep_default : Bool) : NumDict V :=
  NumDict.ofFun (d.supp.filter (fun k => th < d.val k)) d.val
    (thresholdDefault d.default th keep_default)

/-- From ops.py, `clip` (lines 95–110), lower bound: `low = low or float("-inf")`
replaces both an omitted bound and a bound equal to `0.0` (which is falsy in
Python) by `-inf`, and `max(-inf, v) = v`. -/
def applyLow (low : Option V) (v : V) : V :=
  match low with
  | none => v
  | some l => if l = 0 then v else max l v

/-- From ops.py, `clip` (lines 95–110), upper bound: `high = high or float("inf")`,
and `min(inf, v) = v`. -/
def applyHigh (high : Option V) (v : V) : V :=
  match high with
  | none => v
  | some h => if h = 0 then v else min h v

/-- From ops.py, `clip` (lines 95–110): `{k: max(low, min(high, d[k])) for k in d}`
with the default of `d` kept. -/
def clip (d : NumDict V) (low high : Option V) : NumDict V :=
  NumDict.ofFun d.supp (fun k => applyLow low (applyHigh high (d.val k))) d.default

/-- The value `sum(d.values(), 0)` used by `reduce_sum` (ops.py line 122). -/
def sumValue (d : NumDict V) : V :=
  ∑ k in d.supp, d.val k

/-- The value `max(d.values())` used by `reduce_max` (ops.py line 142); it is
defined only for a nonempty NumDict (Python `max(())` raises). -/
def maxValue (d : NumDict V) (h : d.supp.Nonempty) : V :=
  d.supp.sup' h d.val

/-- The value `min(d.values())` used by `reduce_min` (ops.py line 162). -/
def minValue (d : NumDict V) (h : d.supp.Nonempty) : V :=
  d.supp.inf' h d.val

/-- From ops.py, `reduce_sum` (lines 119–128): with `key=None` the result is
`NumDict(default=result)`, otherwise `NumDict({key: result})`. -/
def reduce_sum (d : NumDict V) (key : Option ℕ) : NumDict V :=
  match key with
  | none => emptyND (some (sumValue d))
  | some k => singletonND k (sumValue d)

/-- From ops.py, `reduce_max` (lines 139–148): `max(d.values())` raises on an
empty NumDict (modelled by `none`); otherwise as `reduce_sum` with the max. -/
def reduce_max (d : NumDict V) (key : Option ℕ) : Option (NumDict V) :=
  if h : d.supp.Nonempty then
    some (match key with
      | none => emptyND (some (maxValue d h))
      | some k => singletonND k (maxValue d h))
  else none

/-- From ops.py, `reduce_min` (lines 159–168). -/
def reduce_min (d : NumDict V) (key : Option ℕ) : Option (NumDict V) :=
  if h : d.supp.Nonempty then
    some (match key with
      | none => emptyND (some (minValue d h))
      | some k => singletonND k (minValue d h))
  else none

/-- The key set of the merged dict: `set.union(*map(set, ds))` (ops.py line 186). -/
def mergeSupp (ds : List (NumDict V)) : Finset ℕ :=
  ds.foldr (fun d acc => d.supp ∪ acc) ∅

/-- One step of the `data.update(d)` loop of `merge` (ops.py lines 189–191) at
a fixed key: an explicit entry of the current operand overwrites the
accumulator. -/
def updStep (k : ℕ) (acc : Option V) (e : NumDict V) : Option V :=
  match e.map k with | some v => some v | none => acc

/-- The explicit map built by the `data.update(d)` loop of `merge`
(ops.py lines 189–191): a later operand overwrites an earlier one. -/
def mergeMap (ds : List (NumDict V)) (k : ℕ) : Option V :=
  ds.foldl (updStep k) none

theorem mem_mergeSupp (ds : List (NumDict V)) (k : ℕ) :
    k ∈ mergeSupp ds ↔ ∃ d ∈ ds, k ∈ d.supp := by
  induction ds with
  | nil => simp [mergeSupp]
  | cons d t ih => simp [mergeSupp, List.foldr] at ih ⊢; rw [ih]

theorem foldl_updStep (t : List (NumDict V)) (k : ℕ) (acc : Option V) :
    t.foldl (updStep k) acc
      = match mergeMap t k with | some v => some v | none => acc := by
  induction t generalizing acc with
  | nil => rfl
  | cons d t ih =>
    show t.foldl (updStep k) (updStep k acc d) = _
    rw [ih]
    have h2 : mergeMap (d :: t) k = match mergeMap t k with
        | some v => some v | none => updStep k none d := by
      show t.foldl (updStep k) (updStep k none d) = _
      rw [ih]
    rw [h2]
    cases hmt : mergeMap t k with
    | some v => rfl
    | none => cases hd : d.map k <;> simp [updStep, hd]

theorem mergeMap_cons (d : NumDict V) (t : List (NumDict V)) (k : ℕ) :
    mergeMap (d :: t) k
      = match mergeMap t k with | some v => some v | none => d.map k := by
  show t.foldl (updStep k) (updStep k none d) = _
  rw [foldl_updStep]
  cases hmt : mergeMap t k with
  | some v => rfl
  | none => cases hd : d.map k <;> simp [updStep, hd]

theorem mergeMap_isSome (ds : List (NumDict V)) (k : ℕ) :
    (mergeMap ds k).isSome ↔ k ∈ mergeSupp ds := by
  induction ds with
  | nil => simp [mergeMap, mergeSupp]
  | cons d t ih =>
    rw [mergeMap_cons, mem_mergeSupp]
    cases hmt : mergeMap t k with
    | some v =>
      constructor
      · intro _
        have hmem : k ∈ mergeSupp t := by rw [← ih, hmt]; rfl
        rcases (mem_mergeSupp t k).mp hmem with ⟨e, he, hke⟩
        exact ⟨e, List.mem_cons_of_mem d he, hke⟩
      · intro _
        rfl
    | none =>
      constructor
      · intro h
        exact ⟨d, List.mem_cons_self d t, (d.coh k).mp h⟩
      · rintro ⟨e, he, hke⟩
        rcases List.mem_cons.mp he with rfl | he2
        · exact (e.coh k).mpr hke
        · exfalso
          have hmem : k ∈ mergeSupp t := (mem_mergeSupp t k).mpr ⟨e, he2, hke⟩
          rw [← ih, hmt] at hmem
          simp at hmem

/-- From ops.py, `merge` (lines 180–199): raises on zero operands; raises when
`len(set.union(*map(set, ds))) < sum(map(len, ds))`; otherwise unions the
operand mappings (later operands overwriting, which never happens on the
success path) and keeps the operands' default when they all agree, else `None`. -/
def merge : List (NumDict V) → Option (NumDict V)
  | [] => none
  | d0 :: rest =>
    if (mergeSupp (d0 :: rest)).card <
        ((d0 :: rest).map (fun d => d.supp.card)).sum then none
    else some ⟨mergeSupp (d0 :: rest), mergeMap (d0 :: rest),
      mergeMap_isSome (d0 :: rest),
      if (d0 :: rest).all (fun d => decide (d.default = d0.default)) then
        d0.default else none⟩

theorem mergeSupp_cons (d : NumDict V) (t : List (NumDict V)) :
    mergeSupp (d :: t) = d.supp ∪ mergeSupp t := rfl

theorem mergeSupp_card_le (ds : List (NumDict V)) :
    (mergeSupp ds).card ≤ (ds.map (fun d => d.supp.card)).sum := by
  induction ds with
  | nil => simp [mergeSupp]
  | cons d t ih =>
    rw [mergeSupp_cons, List.map_cons, List.sum_cons]
    have h := Finset.card_union_le d.supp (mergeSupp t)
    omega

theorem disjoint_mergeSupp (d : NumDict V) (t : List (NumDict V)) :
    Disjoint d.supp (mergeSupp t) ↔ ∀ e ∈ t, Disjoint d.supp e.supp := by
  simp only [Finset.disjoint_left]
  constructor
  · intro h e he a ha hae
    exact h ha ((mem_mergeSupp t a).mpr ⟨e, he, hae⟩)
  · intro h a ha hmem
    rcases (mem_mergeSupp t a).mp hmem with ⟨e, he, hae⟩
    exact h e he ha hae

theorem mergeSupp_card_eq_iff (ds : List (NumDict V)) :
    (mergeSupp ds).card = (ds.map (fun d => d.supp.card)).sum ↔
      ds.Pairwise (fun a b => Disjoint a.supp b.supp) := by
  induction ds with
  | nil => simp [mergeSupp]
  | cons d t ih =>
    rw [mergeSupp_cons, List.map_cons, List.sum_cons, List.pairwise_cons]
    have hle := mergeSupp_card_le t
    have hid := Finset.card_union_add_card_inter d.supp (mergeSupp t)
    have hule := Finset.card_union_le d.supp (mergeSupp t)
    constructor
    · intro h
      have h0 : (d.supp ∩ mergeSupp t).card = 0 := by omega
      have h2 : (mergeSupp t).card = (t.map (fun d => d.supp.card)).sum := by
        omega
      refine ⟨?_, ih.mp h2⟩
      intro e he
      refine (disjoint_mergeSupp d t).mp ?_ e he
      rw [Finset.disjoint_iff_inter_eq_empty, ← Finset.card_eq_zero]
      exact h0
    · rintro ⟨h1, h2⟩
      have hdisj := (disjoint_mergeSupp d t).mpr h1
      rw [Finset.card_union_of_disjoint hdisj, ih.mpr h2]

theorem merge_eq_none_iff (ds : List (NumDict V)) :
    merge ds = none ↔
      ds = [] ∨ ¬ ds.Pairwise (fun a b => Disjoint a.supp b.supp) := by
  cases ds with
  | nil => simp [merge]
  | cons d t =>
    have hle := mergeSupp_card_le (d :: t)
    by_cases hc : (mergeSupp (d :: t)).card <
        ((d :: t).map (fun d => d.supp.card)).sum
    · rw [merge, if_pos hc]
      simp only [true_iff]
      right
      intro hpw
      rw [← mergeSupp_card_eq_iff] at hpw
      omega
    · rw [merge, if_neg hc]
      constructor
      · intro h
        exact Option.noConfusion h
      · rintro (h | h)
        · exact List.noConfusion h
        · exfalso
          apply h
          rw [← mergeSupp_card_eq_iff]
          omega

theorem merge_some_fields {ds : List (NumDict V)} {r : NumDict V}
    (h : merge ds = some r) :
    ∃ d0 rest, ds = d0 :: rest ∧ r.supp = mergeSupp ds ∧ r.map = mergeMap ds
      ∧ r.default = (if ds.all (fun d => decide (d.default = d0.default)) then
          d0.default else none)
      ∧ ds.Pairwise (fun a b => Disjoint a.supp b.supp) := by
  cases ds with
  | nil => exact Option.noConfusion h
  | cons d t =>
    refine ⟨d, t, rfl, ?_⟩
    have hle := mergeSupp_card_le (d :: t)
    by_cases hc : (mergeSupp (d :: t)).card <
        ((d :: t).map (fun d => d.supp.card)).sum
    · rw [merge, if_pos hc] at h
      exact Option.noConfusion h
    · rw [merge, if_neg hc] at h
      have hr := Option.some.inj h
      rw [← hr]
      refine ⟨rfl, rfl, rfl, ?_⟩
      rw [← mergeSupp_card_eq_iff]
      omega

theorem mergeMap_eq_some_iff (ds : List (NumDict V)) (k : ℕ) (v : V) :
    ds.Pairwise (fun a b => Disjoint a.supp b.supp) →
      (mergeMap ds k = some v ↔ ∃ d ∈ ds, d.map k = some v) := by
  induction ds with
  | nil =>
    intro _
    simp [mergeMap]
  | cons d t ih =>
    intro h
    rw [List.pairwise_cons] at h
    rw [mergeMap_cons]
    constructor
    · intro hm
      cases ht : mergeMap t k with
      | some w =>
        rw [ht] at hm
        have hm' : w = v := Option.some.inj hm
        subst hm'
        rcases (ih h.2).mp ht with ⟨e, he, hem⟩
        exact ⟨e, List.mem_cons_of_mem d he, hem⟩
      | none =>
        rw [ht] at hm
        exact ⟨d, List.mem_cons_self d t, hm⟩
    · rintro ⟨e, he, hem⟩
      rcases List.mem_cons.mp he with rfl | he2
      · have hk : k ∈ e.supp := (e.coh k).mp (by rw [hem]; rfl)
        have hnone : mergeMap t k = none := by
          by_contra hns
          have hs : (mergeMap t k).isSome := Option.isSome_iff_ne_none.mpr hns
          rw [mergeMap_isSome] at hs
          rcases (mem_mergeSupp t k).mp hs with ⟨f, hf, hkf⟩
          exact absurd hkf (Finset.disjoint_left.mp (h.1 f hf) hk)
        rw [hnone]
        exact hem
      · have hsome := (ih h.2).mpr ⟨e, he2, hem⟩
        rw [hsome]

theorem merge_pair (a b : NumDict V) (hab : Disjoint a.supp b.supp) :
    ∃ r, merge [a, b] = some r ∧ r.supp = a.supp ∪ b.supp
      ∧ (∀ k, r.map k =
          match b.map k with | some v => some v | none => a.map k)
      ∧ r.default = (if b.default = a.default then a.default else none) := by
  have hpw : ([a, b] : List (NumDict V)).Pairwise
      (fun x y => Disjoint x.supp y.supp) := by
    simp [List.pairwise_cons, hab]
  have heq := (mergeSupp_card_eq_iff [a, b]).mpr hpw
  have hcard : ¬ ((mergeSupp [a, b]).card <
      (([a, b]).map (fun d => d.supp.card)).sum) := by omega
  rw [merge, if_neg hcard]
  refine ⟨_, rfl, ?_, ?_, ?_⟩
  · show mergeSupp [a, b] = a.supp ∪ b.supp
    show a.supp ∪ (b.supp ∪ ∅) = a.supp ∪ b.supp
    rw [Finset.union_empty]
  · intro k
    show mergeMap [a, b] k = _
    rw [mergeMap_cons]
    have h1 : mergeMap [b] k = b.map k := by
      rw [mergeMap_cons]
      cases hbk : b.map k <;> rfl
    rw [h1]
  · show (if ([a, b]).all (fun d => decide (d.default = a.default)) then
      a.default else none) = _
    by_cases h : b.default = a.default <;> simp [List.all_cons, h]

theorem pairwise_disjoint_iff_no_shared (ds : List (NumDict V)) :
    ¬ ds.Pairwise (fun a b => Disjoint a.supp b.supp) ↔
      ∃ i j : Fin ds.length, i ≠ j ∧
        ∃ k, k ∈ (ds.get i).supp ∧ k ∈ (ds.get j).supp := by
  rw [List.pairwise_iff_get]
  push_neg
  constructor
  · rintro ⟨i, j, hij, hnd⟩
    rcases Finset.not_disjoint_iff.mp hnd with ⟨k, hk1, hk2⟩
    exact ⟨i, j, ne_of_lt hij, k, hk1, hk2⟩
  · rintro ⟨i, j, hij, k, hk1, hk2⟩
    rcases lt_or_gt_of_ne hij with h | h
    · exact ⟨i, j, h, Finset.not_disjoint_iff.mpr ⟨k, hk1, hk2⟩⟩
    · exact ⟨j, i, h, Finset.not_disjoint_iff.mpr ⟨k, hk2, hk1⟩⟩

/-- From ops.py, `keep` (lines 286–313): a key is retained iff
`(func is not None and func(k)) or (keys is not None and k in keys)`. -/
def keepCond (func : Option (ℕ → Bool)) (keys : Option (Finset ℕ)) (k : ℕ) : Bool :=
  (match func with | some f => f k | none => false) ||
  (match keys with | some s => decide (k ∈ s) | none => false)

/-- From ops.py, `drop` (lines 331–353): a key is retained iff
`(func is not None and not func(k)) and (keys is not None and k not in keys)`
— note the conjunction, mirrored literally from the source. -/
def dropCond (func : Option (ℕ → Bool)) (keys : Option (Finset ℕ)) (k : ℕ) : Bool :=
  (match func with | some f => !f k | none => false) &&
  (match keys with | some s => decide (k ∉ s) | none => false)

/-- From ops.py, `keep` (lines 286–313): raises when both `func` and `keys`
are `None`; otherwise filters `d` by `keepCond`, keeping `d`'s default. -/
def keep (d : NumDict V) (func : Option (ℕ → Bool)) (keys : Option (Finset ℕ)) :
    Option (NumDict V) :=
  match func, keys with
  | none, none => none
  | _, _ => some (NumDict.ofFun (d.supp.filter (fun k => keepCond func keys k))
      d.val d.default)

/-- From ops.py, `drop` (lines 331–353): raises when both `func` and `keys`
are `None`; otherwise filters `d` by `dropCond`, keeping `d`'s default. -/
def drop (d : NumDict V) (func : Option (ℕ → Bool)) (keys : Option (Finset ℕ)) :
    Option (NumDict V) :=
  match func, keys with
  | none, none => none
  | _, _ => some (NumDict.ofFun (d.supp.filter (fun k => dropCond func keys k))
      d.val d.default)

/-- The NumDict built by `transform_keys` on its success path
(ops.py line 375): keys are remapped through `f`, the value at an image key
`j` is `d[k]` for the key `k` with `f k = j` (unique on the success path; the
iteration order of the Python dict is modelled by the sorted key list), the
default is kept. -/
def transformed (d : NumDict V) (f : ℕ → ℕ) : NumDict V :=
  ⟨d.supp.image f,
    fun j => ((d.supp.sort (· ≤ ·)).find? (fun k => f k == j)).bind d.map,
    by
      intro j
      constructor
      · intro hj
        rcases Option.isSome_iff_exists.mp hj with ⟨v, hv⟩
        rcases Option.bind_eq_some.mp hv with ⟨k, hk, hmap⟩
        have hmem : k ∈ d.supp := (Finset.mem_sort (α := ℕ) (· ≤ ·)).mp
          (List.mem_of_find?_eq_some hk)
        have hpk := List.find?_some hk
        simp only [beq_iff_eq] at hpk
        exact Finset.mem_image.mpr ⟨k, hmem, hpk⟩
      · intro hj
        rcases Finset.mem_image.mp hj with ⟨k, hk, hfk⟩
        have hex : ∃ x ∈ d.supp.sort (· ≤ ·), (fun k => f k == j) x = true :=
          ⟨k, (Finset.mem_sort (α := ℕ) (· ≤ ·)).mpr hk, by simp [hfk]⟩
        rcases List.find?_isSome.mpr hex with hsome
        rcases Option.isSome_iff_exists.mp hsome with ⟨k0, hk0⟩
        have hmem0 : k0 ∈ d.supp := (Finset.mem_sort (α := ℕ) (· ≤ ·)).mp
          (List.mem_of_find?_eq_some hk0)
        rw [Option.isSome_iff_exists]
        rcases Option.isSome_iff_exists.mp ((d.coh k0).mpr hmem0) with ⟨v, hv⟩
        exact ⟨v, by simp [hk0, hv]⟩,
    d.default⟩

/-- From ops.py, `transform_keys` (lines 368–382): build
`{func(k): d[k] for k in d}` and raise when `len(d) != len(mapping)` (i.e.
when `func` is not injective on `d`'s keys). -/
def transform_keys (d : NumDict V) (f : ℕ → ℕ) : Option (NumDict V) :=
  if d.supp.card ≠ (d.supp.image f).card then none
  else some (transformed d f)

theorem transformed_supp (d : NumDict V) (f : ℕ → ℕ) :
    (transformed d f).supp = d.supp.image f := rfl

theorem transformed_default (d : NumDict V) (f : ℕ → ℕ) :
    (transformed d f).default = d.default := rfl

theorem transformed_map_image (d : NumDict V) (f : ℕ → ℕ)
    (hinj : Set.InjOn f d.supp) {k : ℕ} (hk : k ∈ d.supp) :
    (transformed d f).map (f k) = d.map k := by
  show ((d.supp.sort (· ≤ ·)).find? (fun x => f x == f k)).bind d.map = d.map k
  have hex : ∃ x ∈ d.supp.sort (· ≤ ·), (fun x => f x == f k) x = true :=
    ⟨k, (Finset.mem_sort (α := ℕ) (· ≤ ·)).mpr hk, by simp⟩
  obtain ⟨x, hx⟩ := Option.isSome_iff_exists.mp (List.find?_isSome.mpr hex)
  have hxs : x ∈ d.supp := (Finset.mem_sort (α := ℕ) (· ≤ ·)).mp
    (List.mem_of_find?_eq_some hx)
  have hfx : f x = f k := by simpa using List.find?_some hx
  have hxk : x = k := hinj hxs hk hfx
  rw [hx, hxk]
  rfl

/-- Modelled from the spec: `with_default` from `numdicts/funcs.py` (absent
from src/), used by `boltzmann`; it replaces the default of a NumDict. -/
def withDefault (d : NumDict V) (dflt : Option V) : NumDict V :=
  ⟨d.supp, d.map, d.coh, dflt⟩

/-- Modelled from the spec: elementwise combination of a NumDict with a scalar
(spec section 4.1: the explicit keys are preserved, each value is combined
pointwise, and the default is combined when defined, else `None`).  This is the
shape of `d / t`, `x - m`, `x.exp()`, `g * nd` in ops.py, whose implementations
live in the absent `numdicts.py`. -/
def NumDict.scalarMap (d : NumDict V) (f : V → V) : NumDict V :=
  ⟨d.supp, fun k => (d.map k).map f,
    fun k => by rw [Option.isSome_map']; exact d.coh k,
    d.default.map f⟩

theorem NumDict.scalarMap_supp (d : NumDict V) (f : V → V) :
    (d.scalarMap f).supp = d.supp := rfl

theorem NumDict.scalarMap_val_of_mem (d : NumDict V) (f : V → V) {k : ℕ}
    (hk : k ∈ d.supp) : (d.scalarMap f).val k = f (d.val k) := by
  rcases Option.isSome_iff_exists.mp ((d.coh k).mpr hk) with ⟨v, hv⟩
  simp [NumDict.scalarMap, NumDict.val, hv]

/-- Modelled from the spec: the pointwise closeness test of `funcs.isclose`
(absent from src/), with Python `math.isclose` default tolerances
(`rel_tol = 1e-9`, `abs_tol = 0`), i.e. `|x - y| <= 1e-9 * max(|x|, |y|)`,
written in the equivalent squared form
`(x-y)^2 * 10^18 <= x^2 or (x-y)^2 * 10^18 <= y^2` to stay inside ring
operations. -/
def closeVal (x y : V) : Bool :=
  decide ((x - y) ^ 2 * 1000000000000000000 ≤ x ^ 2) ||
  decide ((x - y) ^ 2 * 1000000000000000000 ≤ y ^ 2)

/-- Modelled from the spec: `isclose(a, b)` from `numdicts/funcs.py` (absent
from src/) — a pointwise approximate-equality predicate over the union of the
explicit keys, looking values up with default fallback (spec section 4.1); the
result value is `1` where close and `0` elsewhere, the result default combines
the two defaults when both are defined, else is `None`; a key whose lookup
fails on either side is a lookup error, modelled by `none`. -/
def isclose (a b : NumDict V) : Option (NumDict V) :=
  if ∀ k ∈ a.supp ∪ b.supp, (a.get k).isSome ∧ (b.get k).isSome then
    some (NumDict.ofFun (a.supp ∪ b.supp)
      (fun k => if closeVal ((a.get k).getD 0) ((b.get k).getD 0) then 1 else 0)
      (match a.default, b.default with
       | some x, some y => some (if closeVal x y then 1 else 0)
       | _, _ => none))
  else none

/-- From ops.py, `_grad_reduce_max` (lines 151–156): the registered backward
rule of `reduce_max`; `g = grads.default if key is None else grads[key]`, and
the input gradient is `g * isclose(d, reduce_max(d))`.  A missing `g` or an
empty `d` (both Python errors) is modelled by `none`. -/
def grad_reduce_max (grads d : NumDict V) (key : Option ℕ) : Option (NumDict V) :=
  (match key with | none => grads.default | some k => grads.get k).bind fun g =>
    (reduce_max d none).bind fun r =>
      (isclose d r).map fun (m : NumDict V) => m.scalarMap (fun v => g * v)

/-- From ops.py, `boltzmann` (lines 247–270): when `d` is nonempty, compute
`x = d / t`, subtract `reduce_max(x).default`, exponentiate, divide by
`reduce_sum(numerators).default` and install the default (`0` when `d` has a
default, `None` otherwise) via `with_default`; when `d` is empty, return
`NumDict(default=default)`.  The elementwise NumDict/scalar operations are the
spec-modelled `scalarMap`. -/
noncomputable def boltzmann (d : NumDict ℝ) (t : ℝ) : NumDict ℝ :=
  let dflt : Option ℝ := if d.default.isSome then some 0 else none
  if h : d.supp.Nonempty then
    let x := d.scalarMap (fun v => v / t)
    let m := maxValue x h
    let numerators := (x.scalarMap (fun v => v - m)).scalarMap Real.exp
    let denominator := sumValue numerators
    withDefault (numerators.scalarMap (fun v => v / denominator)) dflt
  else emptyND dflt

/-- The operations of the library, used as tape-record tags: the ops.py
exports (its `__all__` plus `min_by`), plus `arith` for the NumDict
container's elementwise arithmetic methods (negation, scalar add/sub/mul/div),
which the spec models as recording primitives like `log`/`exp` (spec 4.2:
`record_call` is invoked by every primitive exactly once; 4.3: `sigmoid`,
`tanh` are diffable purely by composition of `exp` and arithmetic, which
requires those container methods to record).  `byOp` stands for the function
named `by` in the source (a reserved word in Lean). -/
inductive Op where
  | log | exp | arith | sigmoid | tanh | set_by | threshold | clip
  | reduce_sum | reduce_max | reduce_min | merge | byOp | sum_by | max_by | min_by
  | boltzmann | keep | drop | transform_keys
deriving DecidableEq

/-
Tape-instrumented embedding.  Each traced operation returns its forward value
together with the list of tape records its forward evaluation appends, each
record tagged with the operation that called `record_call` for it (the
output-identity and input components of a record are irrelevant to claim C2,
which only counts records and attributes them to operations).  Every
`@register_op` body in ops.py calls `record_call` for itself exactly once,
after computing its value — and only on paths that reach it (an operation that
raises first appends nothing), which the `Option.map` shape below captures.
-/

/-- Traced `threshold` (ops.py lines 65–83): computes `threshold` and appends
its own single record (line 82). -/
def thresholdT (d : NumDict V) (th : V) (keep_default : Bool) :
    NumDict V × List Op :=
  (threshold d th keep_default, [Op.threshold])

/-- Traced `clip` (ops.py lines 95–110): appends its own record (line 109). -/
def clipT (d : NumDict V) (low high : Option V) : NumDict V × List Op :=
  (clip d low high, [Op.clip])

/-- Traced `reduce_sum` (ops.py lines 119–128): total, appends its own record
(line 127). -/
def reduce_sumT (d : NumDict V) (key : Option ℕ) : NumDict V × List Op :=
  (reduce_sum d key, [Op.reduce_sum])

/-- Traced `reduce_max` (ops.py lines 139–148): `max()` raises before
`record_call` (line 147) on an empty input, so no record is appended then. -/
def reduce_maxT (d : NumDict V) (key : Option ℕ) :
    Option (NumDict V × List Op) :=
  (reduce_max d key).map (fun r => (r, [Op.reduce_max]))

/-- Traced `reduce_min` (ops.py lines 159–168). -/
def reduce_minT (d : NumDict V) (key : Option ℕ) :
    Option (NumDict V × List Op) :=
  (reduce_min d key).map (fun r => (r, [Op.reduce_min]))

/-- Traced `merge` (ops.py lines 180–199): the `ValueError` checks precede
`record_call` (line 198), so a failing `merge` appends nothing. -/
def mergeT (ds : List (NumDict V)) : Option (NumDict V × List Op) :=
  (merge ds).map (fun r => (r, [Op.merge]))

/-- Traced `keep` (ops.py lines 286–313): records at line 312 after the
argument check. -/
def keepT (d : NumDict V) (func : Option (ℕ → Bool))
    (keys : Option (Finset ℕ)) : Option (NumDict V × List Op) :=
  (keep d func keys).map (fun r => (r, [Op.keep]))

/-- Traced `drop` (ops.py lines 331–353): records at line 352. -/
def dropT (d : NumDict V) (func : Option (ℕ → Bool))
    (keys : Option (Finset ℕ)) : Option (NumDict V × List Op) :=
  (drop d func keys).map (fun r => (r, [Op.drop]))

/-- Traced `transform_keys` (ops.py lines 368–382): records at line 381 after
the injectivity check. -/
def transform_keysT (d : NumDict V) (f : ℕ → ℕ) :
    Option (NumDict V × List Op) :=
  (transform_keys d f).map (fun r => (r, [Op.transform_keys]))

/-- From ops.py, `set_by` (lines 43–57): `{k: source[keyfunc(k)] for k in
target}` with default `None`; a lookup `source[keyfunc(k)]` that finds no
explicit entry and no default is a lookup error, modelled by `none`. -/
def set_by (target source : NumDict V) (keyfunc : ℕ → ℕ) :
    Option (NumDict V) :=
  if ∀ k ∈ target.supp, (source.get (keyfunc k)).isSome then
    some (NumDict.ofFun target.supp (fun k => (source.get (keyfunc k)).getD 0)
      none)
  else none

/-- Traced `set_by` (ops.py lines 43–57): records at line 55 after the
comprehension (which may raise a lookup error). -/
def set_byT (target source : NumDict V) (keyfunc : ℕ → ℕ) :
    Option (NumDict V × List Op) :=
  (set_by target source keyfunc).map (fun r => (r, [Op.set_by]))

/-- Modelled from the spec: a traced NumDict container method (elementwise
`log`/`exp`/arithmetic; `numdicts.py` absent from src/).  Per spec 4.2/4.3
these are recording primitives, so one invocation appends one record carrying
the method's tag. -/
def scalarMapT (d : NumDict V) (f : V → V) (tag : Op) : NumDict V × List Op :=
  (d.scalarMap f, [tag])

/-- Traced `log` wrapper (ops.py lines 20–23): `d.log()`, one container-method
record and nothing attributable to the wrapper itself. -/
noncomputable def logT (d : NumDict ℝ) : NumDict ℝ × List Op :=
  scalarMapT d Real.log Op.log

/-- Traced `exp` wrapper (ops.py lines 26–29). -/
noncomputable def expT (d : NumDict ℝ) : NumDict ℝ × List Op :=
  scalarMapT d Real.exp Op.exp

/-- Traced `sigmoid` (ops.py lines 32–35): `1 / (1 + (-d).exp())` — four
container-method invocations (negate, exp, scalar add, scalar divide) and no
`record_call` of its own. -/
noncomputable def sigmoidT (d : NumDict ℝ) : NumDict ℝ × List Op :=
  let negr := scalarMapT d (fun v => -v) Op.arith
  let er := scalarMapT negr.1 Real.exp Op.exp
  let addr := scalarMapT er.1 (fun v => 1 + v) Op.arith
  let divr := scalarMapT addr.1 (fun v => 1 / v) Op.arith
  (divr.1, negr.2 ++ er.2 ++ addr.2 ++ divr.2)

/-- Traced `tanh` (ops.py lines 38–41): `(2 * sigmoid(d)) - 1` — the records
of `sigmoid` plus two container arithmetic records, none of its own. -/
noncomputable def tanhT (d : NumDict ℝ) : NumDict ℝ × List Op :=
  let sr := sigmoidT d
  let mr := scalarMapT sr.1 (fun v => 2 * v) Op.arith
  let subr := scalarMapT mr.1 (fun v => v - 1) Op.arith
  (subr.1, sr.2 ++ mr.2 ++ subr.2)

/-- Evaluate an Option-returning function over a list, collecting the results
in order; models the evaluation of the generator pipeline inside `by`
(ops.py lines 225–229), where a raised error aborts the whole call. -/
def optionMapList {α β : Type} (f : α → Option β) : List α → Option (List β)
  | [] => some []
  | k :: ks => (f k).bind fun p => (optionMapList f ks).map fun ps => p :: ps

/-- Traced `by` (ops.py lines 209–229): for each group key (the set
`{keyfunc(k) for k in d}`, whose Python iteration order is arbitrary and is
modelled by the sorted list), restrict `d` with `keep` (which records), apply
the traced `reducer` with that key, and `merge` the results (which records).
The body of `by` contains no `record_call`, so no record it appends carries
the `byOp` tag. -/
def byT (d : NumDict V)
    (reducerT : NumDict V → Option ℕ → Option (NumDict V × List Op))
    (keyfunc : ℕ → ℕ) : Option (NumDict V × List Op) :=
  (optionMapList (fun k =>
      (keepT d none (some (d.supp.filter (fun x => keyfunc x = k)))).bind
        (fun gr => (reducerT gr.1 (some k)).map
          (fun rr => (rr.1, gr.2 ++ rr.2))))
    ((d.supp.image keyfunc).sort (· ≤ ·))).bind
    (fun parts => (mergeT (parts.map Prod.fst)).map
      (fun mr => (mr.1, (parts.map Prod.snd).join ++ mr.2)))

/-- Traced `sum_by` (ops.py lines 233–235): `by` with `reduce_sum`. -/
def sum_byT (d : NumDict V) (keyfunc : ℕ → ℕ) :
    Option (NumDict V × List Op) :=
  byT d (fun g k => some (reduce_sumT g k)) keyfunc

/-- Traced `max_by` (ops.py lines 238–240). -/
def max_byT (d : NumDict V) (keyfunc : ℕ → ℕ) :
    Option (NumDict V × List Op) :=
  byT d (fun g k => reduce_maxT g k) keyfunc

/-- Traced `min_by` (ops.py lines 243–245). -/
def min_byT (d : NumDict V) (keyfunc : ℕ → ℕ) :
    Option (NumDict V × List Op) :=
  byT d (fun g k => reduce_minT g k) keyfunc

/-- Traced `boltzmann` (ops.py lines 247–270), mirroring the body call by
call on the nonempty branch: `x = d / t` (container arithmetic, records),
`reduce_max(x)` (records; it cannot raise here, so the `getD` fallback is
never taken), `x - m` (records), `x.exp()` (records), `reduce_sum(numerators)`
(records), `numerators / denominator` (records), `with_default` (a plain
helper, not an op), and finally boltzmann's own `record_call` (line 264); on
the empty branch only its own `record_call` (line 269) runs. -/
noncomputable def boltzmannT (d : NumDict ℝ) (t : ℝ) : NumDict ℝ × List Op :=
  let dflt : Option ℝ := if d.default.isSome then some 0 else none
  if d.supp.Nonempty then
    let xr := scalarMapT d (fun v => v / t) Op.arith
    let rmaxr := (reduce_maxT xr.1 none).getD (emptyND none, [])
    let x2r := scalarMapT xr.1 (fun v => v - rmaxr.1.default.getD 0) Op.arith
    let numr := scalarMapT x2r.1 Real.exp Op.exp
    let rsumr := reduce_sumT numr.1 none
    let vr := scalarMapT numr.1 (fun v => v / rsumr.1.default.getD 0) Op.arith
    (withDefault vr.1 dflt,
      xr.2 ++ rmaxr.2 ++ x2r.2 ++ numr.2 ++ rsumr.2 ++ vr.2 ++ [Op.boltzmann])
  else (emptyND dflt, [Op.boltzmann])

theorem optionMap_tag_records {α : Type} {o : Option α} {tag : List Op}
    {r : α × List Op} (h : (o.map (fun x => (x, tag))) = some r) :
    r.2 = tag := by
  rcases Option.map_eq_some'.mp h with ⟨v, hv, hr⟩
  rw [← hr]

theorem keepT_records {d : NumDict V} {func : Option (ℕ → Bool)}
    {keys : Option (Finset ℕ)} {r : NumDict V × List Op}
    (h : keepT d func keys = some r) : r.2 = [Op.keep] := by
  rw [keepT] at h
  exact optionMap_tag_records h

theorem dropT_records {d : NumDict V} {func : Option (ℕ → Bool)}
    {keys : Option (Finset ℕ)} {r : NumDict V × List Op}
    (h : dropT d func keys = some r) : r.2 = [Op.drop] := by
  rw [dropT] at h
  exact optionMap_tag_records h

theorem mergeT_records {ds : List (NumDict V)} {r : NumDict V × List Op}
    (h : mergeT ds = some r) : r.2 = [Op.merge] := by
  rw [mergeT] at h
  exact optionMap_tag_records h

theorem reduce_maxT_records {d : NumDict V} {key : Option ℕ}
    {r : NumDict V × List Op} (h : reduce_maxT d key = some r) :
    r.2 = [Op.reduce_max] := by
  rw [reduce_maxT] at h
  exact optionMap_tag_records h

theorem reduce_minT_records {d : NumDict V} {key : Option ℕ}
    {r : NumDict V × List Op} (h : reduce_minT d key = some r) :
    r.2 = [Op.reduce_min] := by
  rw [reduce_minT] at h
  exact optionMap_tag_records h

theorem transform_keysT_records {d : NumDict V} {f : ℕ → ℕ}
    {r : NumDict V × List Op} (h : transform_keysT d f = some r) :
    r.2 = [Op.transform_keys] := by
  rw [transform_keysT] at h
  exact optionMap_tag_records h

theorem set_byT_records {target source : NumDict V} {kf : ℕ → ℕ}
    {r : NumDict V × List Op} (h : set_byT target source kf = some r) :
    r.2 = [Op.set_by] := by
  rw [set_byT] at h
  exact optionMap_tag_records h

theorem optionMapList_mem {α β : Type} (f : α → Option β) :
    ∀ (l : List α) (res : List β), optionMapList f l = some res →
      ∀ b ∈ res, ∃ a ∈ l, f a = some b := by
  intro l
  induction l with
  | nil =>
    intro res h b hb
    rw [optionMapList] at h
    rw [← Option.some.inj h] at hb
    exact absurd hb (List.not_mem_nil b)
  | cons a t ih =>
    intro res h b hb
    rw [optionMapList] at h
    rcases Option.bind_eq_some.mp h with ⟨p, hp, h2⟩
    rcases Option.map_eq_some'.mp h2 with ⟨ps, hps, hres⟩
    rw [← hres] at hb
    rcases List.mem_cons.mp hb with rfl | hb2
    · exact ⟨a, List.mem_cons_self a t, hp⟩
    · rcases ih ps hps b hb2 with ⟨a2, ha2, hfa2⟩
      exact ⟨a2, List.mem_cons_of_mem a ha2, hfa2⟩

/-- The body of `by` contains no `record_call`, so the records of a successful
`by` evaluation consist only of `keep` records, records of the traced reducer,
and a `merge` record: any tag other than those never occurs. -/
theorem byT_records_avoid (tag : Op) (d : NumDict V)
    (reducerT : NumDict V → Option ℕ → Option (NumDict V × List Op))
    (keyfunc : ℕ → ℕ) (res : NumDict V × List Op)
    (htk : tag ≠ Op.keep) (htm : tag ≠ Op.merge)
    (hred : ∀ g k rr, reducerT g k = some rr → tag ∉ rr.2)
    (h : byT d reducerT keyfunc = some res) : tag ∉ res.2 := by
  rw [byT] at h
  rcases Option.bind_eq_some.mp h with ⟨parts, hparts, hF⟩
  rcases Option.map_eq_some'.mp hF with ⟨mr, hmr, hres⟩
  have hmr2 : mr.2 = [Op.merge] := mergeT_records hmr
  intro hmem
  rw [← hres] at hmem
  rcases List.mem_append.mp hmem with hj | hm
  · rcases List.mem_join.mp hj with ⟨recs, hrecs, htagl⟩
    rcases List.mem_map.mp hrecs with ⟨p, hp, rfl⟩
    rcases optionMapList_mem _ _ _ hparts p hp with ⟨k, hk, hstep⟩
    rcases Option.bind_eq_some.mp hstep with ⟨gr, hgr, hstep2⟩
    rcases Option.map_eq_some'.mp hstep2 with ⟨rr, hrr, hp2⟩
    have hgr2 : gr.2 = [Op.keep] := keepT_records hgr
    rw [← hp2] at htagl
    rcases List.mem_append.mp htagl with h1 | h2
    · rw [hgr2] at h1
      simp at h1
      exact htk h1
    · exact (hred gr.1 (some k) rr hrr) h2
  · rw [hmr2] at hm
    simp at hm
    exact htm hm

theorem reduce_maxT_eq (d : NumDict V) (h : d.supp.Nonempty) :
    reduce_maxT d none
      = some (emptyND (some (maxValue d h)), [Op.reduce_max]) := by
  rw [reduce_maxT, reduce_max, dif_pos h]
  rfl

/-- The records of one forward evaluation of `boltzmann` on a nonempty input:
the three container-method records of `d / t`, `x - m` and
`numerators / denominator`, the `x.exp()` record, the records of the invoked
recording primitives `reduce_max` and `reduce_sum`, and boltzmann's own
record, in source order. -/
theorem boltzmannT_records (d : NumDict ℝ) (t : ℝ) (h : d.supp.Nonempty) :
    (boltzmannT d t).2 = [Op.arith, Op.reduce_max, Op.arith, Op.exp,
      Op.reduce_sum, Op.arith, Op.boltzmann] := by
  have h2 : ((scalarMapT d (fun v => v / t) Op.arith).1).supp.Nonempty := h
  simp only [boltzmannT]
  rw [if_pos h, reduce_maxT_eq ((scalarMapT d (fun v => v / t) Op.arith).1) h2]
  rfl

theorem boltzmannT_records_empty (d : NumDict ℝ) (t : ℝ)
    (h : ¬ d.supp.Nonempty) : (boltzmannT d t).2 = [Op.boltzmann] := by
  simp only [boltzmannT]
  rw [if_neg h]

/-- The traced `boltzmann` computes the same forward value as the pure
embedding `boltzmann` of ops.py lines 247–270. -/
theorem boltzmannT_fst (d : NumDict ℝ) (t : ℝ) :
    (boltzmannT d t).1 = boltzmann d t := by
  by_cases h : d.supp.Nonempty
  · have h2 : ((scalarMapT d (fun v => v / t) Op.arith).1).supp.Nonempty := h
    simp only [boltzmannT, boltzmann]
    rw [if_pos h, dif_pos h,
      reduce_maxT_eq ((scalarMapT d (fun v => v / t) Op.arith).1) h2]
    rfl
  · simp only [boltzmannT, boltzmann]
    rw [if_neg h, dif_neg h]

/-- Every forward evaluation of `boltzmann` appends exactly one record
attributable to `boltzmann` itself. -/
theorem boltzmannT_count (d : NumDict ℝ) (t : ℝ) :
    (boltzmannT d t).2.count Op.boltzmann = 1 := by
  by_cases h : d.supp.Nonempty
  · rw [boltzmannT_records d t h]
    decide
  · rw [boltzmannT_records_empty d t h]
    decide

/-- Claim C6: for every NumDict `d` and every threshold `th`, `threshold`
retains exactly the explicit entries of `d` whose value is strictly greater
than `th` (every retained value satisfies `value > th`, every dropped key
satisfies `value <= th`), and the result default is `None` unless `d`'s
default itself exceeds `th` or `keep_default` is set, in which case `d`'s
default is kept. -/
theorem C6_threshold_spec (d : NumDict ℚ) (th : ℚ) (kd : Bool) :
    ((threshold d th kd).supp = d.supp.filter (fun k => th < d.val k))
    ∧ (∀ k ∈ (threshold d th kd).supp,
        (threshold d th kd).map k = d.map k ∧ th < (threshold d th kd).val k)
    ∧ (∀ k ∈ d.supp, k ∉ (threshold d th kd).supp → d.val k ≤ th)
    ∧ (kd = true → (threshold d th kd).default = d.default)
    ∧ (∀ dv, d.default = some dv → th < dv →
        (threshold d th kd).default = d.default)
    ∧ (kd = false → (∀ dv, d.default = some dv → dv ≤ th) →
        (threshold d th kd).default = none) := by
  refine ⟨rfl, ?_, ?_, ?_, ?_, ?_⟩
  · intro k hk
    have hk2 : k ∈ d.supp.filter (fun k => th < d.val k) := hk
    have hk' : k ∈ d.supp ∧ th < d.val k := Finset.mem_filter.mp hk2
    constructor
    · show (if k ∈ d.supp.filter (fun k => th < d.val k) then some (d.val k)
        else none) = d.map k
      rw [if_pos hk2, NumDict.map_eq_some_val hk'.1]
    · show th < (NumDict.ofFun (d.supp.filter (fun k => th < d.val k)) d.val
        (thresholdDefault d.default th kd)).val k
      rw [NumDict.ofFun_val_of_mem _ _ hk2]
      exact hk'.2
  · intro k hk hnk
    have : ¬ th < d.val k := fun hlt => hnk (Finset.mem_filter.mpr ⟨hk, hlt⟩)
    exact le_of_not_lt this
  · intro hkd
    subst hkd
    show thresholdDefault d.default th true = d.default
    rcases d.default with _ | dv
    · rfl
    · simp [thresholdDefault]
  · intro dv hdv hlt
    show thresholdDefault d.default th kd = d.default
    rw [hdv]
    simp [thresholdDefault, hlt]
  · intro hkd hle
    subst hkd
    show thresholdDefault d.default th false = none
    rcases hd : d.default with _ | dv
    · rfl
    · have : ¬ th < dv := not_lt.mpr (hle dv hd)
      simp [thresholdDefault, this]

/-- Witness for C6 at the concrete input `d = {0: 1}`, `th = 0`,
`keep_default = false`. -/
theorem C6_threshold_witness :
    0 ∈ (threshold (NumDict.ofFun {0} (fun _ => (1 : ℚ)) none) 0 false).supp ∧
    (threshold (NumDict.ofFun {0} (fun _ => (1 : ℚ)) none) 0 false).default = none :=
  ⟨(C6_threshold_spec (NumDict.ofFun {0} (fun _ => (1 : ℚ)) none) 0 false).1 ▸
      (by decide),
   (C6_threshold_spec (NumDict.ofFun {0} (fun _ => (1 : ℚ)) none) 0 false).2.2.2.2.2
      rfl (fun dv hdv => by simp [NumDict.ofFun_default] at hdv)⟩

/-- Claim C3: the code bug at a zero bound.  On `d = {0: -5}` with `low = 0.0`
(and `high` omitted) `clip` returns `-5` unchanged, because Python's
`low = low or float("-inf")` treats the falsy bound `0.0` as absent; the
claimed clamp `max(low, min(high, d[k]))` would give `max 0 (-5) = 0`. -/
theorem C3_clip_zero_bound_bug :
    (clip (NumDict.ofFun {0} (fun _ => (-5 : ℚ)) none) (some 0) none).map 0 =
      some (-5)
    ∧ max (0 : ℚ) (min (5 : ℚ) (-5)) = 0 := by
  constructor
  · decide
  · norm_num

/-- Claim C10: on a NumDict with no explicit entries, `reduce_sum` does not
raise — with `key` omitted it returns the empty NumDict with default `0`, and
with a key it returns the single-entry NumDict `{key: 0}` — while `reduce_max`
and `reduce_min` fail. -/
theorem C10_reduce_empty (d : NumDict ℚ) (h : d.supp = ∅) :
    reduce_sum d none = emptyND (some 0)
    ∧ (∀ k, reduce_sum d (some k) = singletonND k 0)
    ∧ (∀ key, reduce_max d key = none)
    ∧ (∀ key, reduce_min d key = none) := by
  have hs : sumValue d = 0 := by rw [sumValue, h]; simp
  have hne : ¬ d.supp.Nonempty := by rw [h]; exact Finset.not_nonempty_empty
  refine ⟨?_, ?_, ?_, ?_⟩
  · show emptyND (some (sumValue d)) = emptyND (some 0)
    rw [hs]
  · intro k
    show singletonND k (sumValue d) = singletonND k 0
    rw [hs]
  · intro key
    rw [reduce_max, dif_neg hne]
  · intro key
    rw [reduce_min, dif_neg hne]

/-- Witness for C10 at the concrete empty NumDict with default `None`. -/
theorem C10_reduce_empty_witness :
    reduce_sum (emptyND (none : Option ℚ)) none = emptyND (some 0)
    ∧ reduce_max (emptyND (none : Option ℚ)) none = none :=
  ⟨(C10_reduce_empty (emptyND none) rfl).1,
   (C10_reduce_empty (emptyND none) rfl).2.2.1 none⟩

/-- The concrete NumDict `{0: 1, 1: 2}` used for claim C1. -/
def dC1 : NumDict ℚ := NumDict.ofFun {0, 1} (fun k => (k : ℚ) + 1) none

/-- Counterexample to claim C1: with only `keys = {0}` given (no `func`),
the explicit key `1` of `d` appears in neither `keep`'s nor `drop`'s result,
because `drop`'s retention condition
`(func is not None and not func(k)) and (keys is not None and k not in keys)`
is identically false when `func is None`; so `drop` is not the complement of
`keep` for every choice of filtering arguments with at least one given. -/
theorem C1_keep_drop_counterexample :
    ∃ rk rd, keep dC1 none (some {0}) = some rk ∧ drop dC1 none (some {0}) = some rd
      ∧ 1 ∈ dC1.supp ∧ 1 ∉ rk.supp ∧ 1 ∉ rd.supp := by
  refine ⟨_, _, rfl, rfl, ?_, ?_, ?_⟩ <;> decide

/-- Claim C1 as amended: when both `func` and `keys` are given, `drop` is the
complement of `keep` — every explicit key of `d` appears in exactly one of the
two results, with its original value — but when only one of the two filtering
arguments is given, `drop` retains no explicit entries at all. -/
theorem C1_keep_drop_amended (d : NumDict ℚ) (f : ℕ → Bool) (s : Finset ℕ) :
    (∃ rk rd, keep d (some f) (some s) = some rk ∧ drop d (some f) (some s) = some rd
      ∧ (∀ k ∈ d.supp, (k ∈ rk.supp ↔ k ∉ rd.supp))
      ∧ (∀ k ∈ rk.supp, rk.map k = d.map k)
      ∧ (∀ k ∈ rd.supp, rd.map k = d.map k))
    ∧ (∀ rd, drop d none (some s) = some rd → rd.supp = ∅)
    ∧ (∀ rd, drop d (some f) none = some rd → rd.supp = ∅) := by
  refine ⟨⟨_, _, rfl, rfl, ?_, ?_, ?_⟩, ?_, ?_⟩
  · intro k hk
    show k ∈ d.supp.filter (fun k => keepCond (some f) (some s) k) ↔
      k ∉ d.supp.filter (fun k => dropCond (some f) (some s) k)
    rw [Finset.mem_filter, Finset.mem_filter]
    cases hf : f k <;> by_cases hs : k ∈ s <;>
      simp [keepCond, dropCond, hf, hs, hk]
  · intro k hk
    have hk2 : k ∈ d.supp.filter (fun k => keepCond (some f) (some s) k) := hk
    have hk' : k ∈ d.supp := (Finset.mem_filter.mp hk2).1
    show (if k ∈ d.supp.filter (fun k => keepCond (some f) (some s) k) then
      some (d.val k) else none) = d.map k
    rw [if_pos hk2, NumDict.map_eq_some_val hk']
  · intro k hk
    have hk2 : k ∈ d.supp.filter (fun k => dropCond (some f) (some s) k) := hk
    have hk' : k ∈ d.supp := (Finset.mem_filter.mp hk2).1
    show (if k ∈ d.supp.filter (fun k => dropCond (some f) (some s) k) then
      some (d.val k) else none) = d.map k
    rw [if_pos hk2, NumDict.map_eq_some_val hk']
  · intro rd hrd
    have : rd = NumDict.ofFun
        (d.supp.filter (fun k => dropCond none (some s) k)) d.val d.default :=
      (Option.some.inj hrd).symm
    rw [this]
    show d.supp.filter (fun k => dropCond none (some s) k) = ∅
    apply Finset.filter_false_of_mem
    intro k hk
    simp [dropCond]
  · intro rd hrd
    have : rd = NumDict.ofFun
        (d.supp.filter (fun k => dropCond (some f) none k)) d.val d.default :=
      (Option.some.inj hrd).symm
    rw [this]
    show d.supp.filter (fun k => dropCond (some f) none k) = ∅
    apply Finset.filter_false_of_mem
    intro k hk
    simp [dropCond]

/-- Witness for the amended C1 at `d = {0: 1, 1: 2}`, `func = (k == 0)`,
`keys = {1}`: key `0` is kept by `keep` and (equivalently) not by `drop`. -/
theorem C1_keep_drop_witness :
    ∃ rk rd, keep dC1 (some (fun k => k == 0)) (some {1}) = some rk
      ∧ drop dC1 (some (fun k => k == 0)) (some {1}) = some rd
      ∧ (0 ∈ rk.supp ↔ 0 ∉ rd.supp) := by
  obtain ⟨⟨rk, rd, h1, h2, h3, _, _⟩, _, _⟩ :=
    C1_keep_drop_amended dC1 (fun k => k == 0) {1}
  exact ⟨rk, rd, h1, h2, h3 0 (by decide)⟩

/-- The concrete NumDict `{a: 1.0, b: 2.0, c: 3.0}` of claim C5, with the keys
`a`, `b`, `c` encoded as `0`, `1`, `2`. -/
def dC5 : NumDict ℚ :=
  NumDict.ofFun {0, 1, 2} (fun k => if k = 0 then 1 else if k = 1 then 2 else 3)
    none

/-- The upstream gradient seed of claim C5: `NumDict(default=1)`, the uniform
upstream gradient `1.0` for a default-only output. -/
def gradsC5 : NumDict ℚ := emptyND (some 1)

/-- The NumDict produced by the spec-modelled `isclose` on claim C5's inputs
`d = {0: 1, 1: 2, 2: 3}` and `reduce_max(d) = NumDict(default=3)`. -/
def iccC5 : NumDict ℚ :=
  NumDict.ofFun (dC5.supp ∪ (emptyND (some (3 : ℚ))).supp)
    (fun k => if closeVal ((dC5.get k).getD 0)
      (((emptyND (some (3 : ℚ))).get k).getD 0) then 1 else 0)
    none

/-- Claim C5: on `d = {a: 1, b: 2, c: 3}`, `reduce_max(d)` (key omitted)
returns a NumDict with no explicit entries and default `3`, and applying the
registered backward rule `_grad_reduce_max` with uniform upstream gradient `1`
yields the gradient `{a: 0, b: 0, c: 1}` with respect to `d`. -/
theorem C5_reduce_max_concrete :
    (∃ r, reduce_max dC5 none = some r ∧ r.supp = ∅ ∧ r.default = some 3)
    ∧ (∃ g, grad_reduce_max gradsC5 dC5 none = some g
        ∧ g.supp = {0, 1, 2} ∧ g.map 0 = some 0 ∧ g.map 1 = some 0
        ∧ g.map 2 = some 1 ∧ g.default = none) := by
  have hne : dC5.supp.Nonempty := ⟨0, by decide⟩
  have hv0 : dC5.val 0 = 1 := by norm_num [dC5, NumDict.val, NumDict.ofFun]
  have hv1 : dC5.val 1 = 2 := by norm_num [dC5, NumDict.val, NumDict.ofFun]
  have hv2 : dC5.val 2 = 3 := by norm_num [dC5, NumDict.val, NumDict.ofFun]
  have hmax : maxValue dC5 hne = 3 := by
    show ({0, 1, 2} : Finset ℕ).sup' hne dC5.val = 3
    rw [Finset.sup'_insert (Finset.insert_nonempty 1 {2}),
      Finset.sup'_insert (Finset.singleton_nonempty 2), Finset.sup'_singleton,
      hv0, hv1, hv2, sup_eq_max, sup_eq_max]
    norm_num [max_def]
  have hrm : reduce_max dC5 none = some (emptyND (some 3)) := by
    rw [reduce_max, dif_pos hne, hmax]
  have hgu : ∀ k ∈ dC5.supp ∪ (emptyND (some (3 : ℚ))).supp,
      (dC5.get k).isSome ∧ ((emptyND (some (3 : ℚ))).get k).isSome := by decide
  have hic : isclose dC5 (emptyND (some 3)) = some iccC5 := by
    rw [isclose, if_pos hgu]
    rfl
  have hc13 : closeVal (1 : ℚ) 3 = false := by
    simp only [closeVal, Bool.or_eq_false_iff, decide_eq_false_iff_not]
    norm_num
  have hc23 : closeVal (2 : ℚ) 3 = false := by
    simp only [closeVal, Bool.or_eq_false_iff, decide_eq_false_iff_not]
    norm_num
  have hc33 : closeVal (3 : ℚ) 3 = true := by
    simp only [closeVal, Bool.or_eq_true, decide_eq_true_eq]
    exact Or.inl (by norm_num)
  have hgr : grad_reduce_max gradsC5 dC5 none =
      some (iccC5.scalarMap (fun v => (1 : ℚ) * v)) := by
    have h0 : grad_reduce_max gradsC5 dC5 none
        = (reduce_max dC5 none).bind (fun r => (isclose dC5 r).map
            (fun (m : NumDict ℚ) => m.scalarMap (fun v => (1 : ℚ) * v))) := rfl
    rw [h0, hrm]
    show (isclose dC5 (emptyND (some 3))).map
      (fun (m : NumDict ℚ) => m.scalarMap (fun v => (1 : ℚ) * v)) = _
    rw [hic]
    rfl
  have hm0 : iccC5.map 0 = some (if closeVal (1 : ℚ) 3 then 1 else 0) := by
    show (if (0 : ℕ) ∈ dC5.supp ∪ (emptyND (some (3 : ℚ))).supp then
      some (if closeVal ((dC5.get 0).getD 0)
        (((emptyND (some (3 : ℚ))).get 0).getD 0) then (1 : ℚ) else 0)
      else none) = _
    rw [if_pos (by decide)]
    rfl
  have hm1 : iccC5.map 1 = some (if closeVal (2 : ℚ) 3 then 1 else 0) := by
    show (if (1 : ℕ) ∈ dC5.supp ∪ (emptyND (some (3 : ℚ))).supp then
      some (if closeVal ((dC5.get 1).getD 0)
        (((emptyND (some (3 : ℚ))).get 1).getD 0) then (1 : ℚ) else 0)
      else none) = _
    rw [if_pos (by decide)]
    rfl
  have hm2 : iccC5.map 2 = some (if closeVal (3 : ℚ) 3 then 1 else 0) := by
    show (if (2 : ℕ) ∈ dC5.supp ∪ (emptyND (some (3 : ℚ))).supp then
      some (if closeVal ((dC5.get 2).getD 0)
        (((emptyND (some (3 : ℚ))).get 2).getD 0) then (1 : ℚ) else 0)
      else none) = _
    rw [if_pos (by decide)]
    rfl
  refine ⟨⟨_, hrm, rfl, rfl⟩, ⟨_, hgr, ?_, ?_, ?_, ?_, rfl⟩⟩
  · show dC5.supp ∪ (emptyND (some (3 : ℚ))).supp = {0, 1, 2}
    exact Finset.union_empty _
  · show (iccC5.map 0).map (fun v => (1 : ℚ) * v) = some 0
    rw [hm0, hc13]
    norm_num
  · show (iccC5.map 1).map (fun v => (1 : ℚ) * v) = some 0
    rw [hm1, hc23]
    norm_num
  · show (iccC5.map 2).map (fun v => (1 : ℚ) * v) = some 1
    rw [hm2, hc33]
    norm_num

/-- The concrete nonempty NumDict `{0: 1}` over the reals, at which claim C2
is refuted. -/
noncomputable def dC2 : NumDict ℝ := NumDict.ofFun {0} (fun _ => 1) none

/-- Counterexample to claim C2: one forward evaluation of `boltzmann` on the
concrete input `{0: 1}` with `t = 1` appends — besides exactly one record of
its own (ops.py line 264) — the records of the recording primitives
`reduce_max` (line 259) and `reduce_sum` (line 261) that its forward
computation invokes (and the records of the container's elementwise methods),
so an operation that calls `record_call` does invoke other recorded
primitives, contrary to the claim. -/
theorem C2_recording_counterexample :
    (boltzmannT dC2 1).2
      = [Op.arith, Op.reduce_max, Op.arith, Op.exp, Op.reduce_sum, Op.arith,
         Op.boltzmann]
    ∧ Op.boltzmann ∈ (boltzmannT dC2 1).2
    ∧ Op.reduce_max ∈ (boltzmannT dC2 1).2
    ∧ Op.reduce_max ≠ Op.boltzmann := by
  have h := boltzmannT_records dC2 1 ⟨0, Finset.mem_singleton_self 0⟩
  refine ⟨h, ?_, ?_, by decide⟩
  · rw [h]
    decide
  · rw [h]
    decide

/-- Claim C2 as amended, over the tape-instrumented embedding: the composition
wrappers (`sigmoid`, `tanh`, `by`, `sum_by`, `max_by`, `min_by`) call
`record_call` zero times per forward evaluation — no record they append
carries their own tag — and the `log`/`exp` wrappers append only the single
record of the container method they delegate to; every recording operation of
ops.py except `boltzmann` appends exactly one tape record, its own, per
forward evaluation (so it invokes no other recorded primitive); `boltzmann` is
the exception: it still appends exactly one record attributable to itself, but
its forward evaluation also appends the records of the recording primitives
`reduce_max` and `reduce_sum` that it invokes. -/
theorem C2_recording_amended :
    (∀ d : NumDict ℝ, Op.sigmoid ∉ (sigmoidT d).2)
    ∧ (∀ d : NumDict ℝ, Op.tanh ∉ (tanhT d).2)
    ∧ (∀ d : NumDict ℝ, (logT d).2 = [Op.log])
    ∧ (∀ d : NumDict ℝ, (expT d).2 = [Op.exp])
    ∧ (∀ (d : NumDict ℝ) reducerT keyfunc res,
        (∀ g k rr, reducerT g k = some rr → Op.byOp ∉ rr.2) →
        byT d reducerT keyfunc = some res → Op.byOp ∉ res.2)
    ∧ (∀ (d : NumDict ℝ) keyfunc res, sum_byT d keyfunc = some res →
        Op.sum_by ∉ res.2)
    ∧ (∀ (d : NumDict ℝ) keyfunc res, max_byT d keyfunc = some res →
        Op.max_by ∉ res.2)
    ∧ (∀ (d : NumDict ℝ) keyfunc res, min_byT d keyfunc = some res →
        Op.min_by ∉ res.2)
    ∧ (∀ (d : NumDict ℝ) th kd, (thresholdT d th kd).2 = [Op.threshold])
    ∧ (∀ (d : NumDict ℝ) lo hi, (clipT d lo hi).2 = [Op.clip])
    ∧ (∀ (d : NumDict ℝ) key, (reduce_sumT d key).2 = [Op.reduce_sum])
    ∧ (∀ (d : NumDict ℝ) key r, reduce_maxT d key = some r →
        r.2 = [Op.reduce_max])
    ∧ (∀ (d : NumDict ℝ) key r, reduce_minT d key = some r →
        r.2 = [Op.reduce_min])
    ∧ (∀ (ds : List (NumDict ℝ)) r, mergeT ds = some r → r.2 = [Op.merge])
    ∧ (∀ (d : NumDict ℝ) func keys r, keepT d func keys = some r →
        r.2 = [Op.keep])
    ∧ (∀ (d : NumDict ℝ) func keys r, dropT d func keys = some r →
        r.2 = [Op.drop])
    ∧ (∀ (d : NumDict ℝ) f r, transform_keysT d f = some r →
        r.2 = [Op.transform_keys])
    ∧ (∀ (t s : NumDict ℝ) kf r, set_byT t s kf = some r → r.2 = [Op.set_by])
    ∧ (∀ (d : NumDict ℝ) t, (boltzmannT d t).2.count Op.boltzmann = 1)
    ∧ (∀ (d : NumDict ℝ) t, d.supp.Nonempty →
        Op.reduce_max ∈ (boltzmannT d t).2 ∧ Op.reduce_sum ∈ (boltzmannT d t).2)
    := by
  refine ⟨?_, ?_, fun d => rfl, fun d => rfl, ?_, ?_, ?_, ?_,
    fun d th kd => rfl, fun d lo hi => rfl, fun d key => rfl,
    fun d key r h => reduce_maxT_records h,
    fun d key r h => reduce_minT_records h,
    fun ds r h => mergeT_records h,
    fun d func keys r h => keepT_records h,
    fun d func keys r h => dropT_records h,
    fun d f r h => transform_keysT_records h,
    fun t s kf r h => set_byT_records h,
    fun d t => boltzmannT_count d t, ?_⟩
  · intro d
    show Op.sigmoid ∉ ([Op.arith] ++ [Op.exp] ++ [Op.arith] ++ [Op.arith]
      : List Op)
    decide
  · intro d
    show Op.tanh ∉ (([Op.arith] ++ [Op.exp] ++ [Op.arith] ++ [Op.arith])
      ++ [Op.arith] ++ [Op.arith] : List Op)
    decide
  · intro d reducerT keyfunc res hred h
    exact byT_records_avoid Op.byOp d reducerT keyfunc res (by decide)
      (by decide) hred h
  · intro d keyfunc res h
    rw [sum_byT] at h
    refine byT_records_avoid Op.sum_by d _ keyfunc res (by decide)
      (by decide) ?_ h
    intro g k rr hrr
    rw [← Option.some.inj hrr]
    show Op.sum_by ∉ ([Op.reduce_sum] : List Op)
    decide
  · intro d keyfunc res h
    rw [max_byT] at h
    refine byT_records_avoid Op.max_by d _ keyfunc res (by decide)
      (by decide) ?_ h
    intro g k rr hrr
    rw [reduce_maxT_records hrr]
    decide
  · intro d keyfunc res h
    rw [min_byT] at h
    refine byT_records_avoid Op.min_by d _ keyfunc res (by decide)
      (by decide) ?_ h
    intro g k rr hrr
    rw [reduce_minT_records hrr]
    decide
  · intro d t h
    constructor <;> rw [boltzmannT_records d t h] <;> decide

/-- Witness for the amended C2 at concrete inputs: `sigmoid` on the empty
NumDict appends no record of its own, `threshold` appends exactly its single
record, `reduce_max` on the nonempty `{0: 1}` appends exactly its single
record, and `boltzmann` on `{0: 1}` appends the record of the `reduce_max` it
invokes. -/
theorem C2_recording_witness :
    Op.sigmoid ∉ (sigmoidT (emptyND (none : Option ℝ))).2
    ∧ (thresholdT (emptyND (none : Option ℝ)) 0 false).2 = [Op.threshold]
    ∧ (∃ r, reduce_maxT dC2 none = some r ∧ r.2 = [Op.reduce_max])
    ∧ Op.reduce_max ∈ (boltzmannT dC2 1).2 := by
  obtain ⟨h1, _, _, _, _, _, _, _, h9, _, _, h12, _, _, _, _, _, _, _, h20⟩ :=
    C2_recording_amended
  have hne : dC2.supp.Nonempty := ⟨0, Finset.mem_singleton_self 0⟩
  have hrm := reduce_maxT_eq dC2 hne
  exact ⟨h1 (emptyND none), h9 (emptyND none) 0 false,
    ⟨_, hrm, h12 dC2 none _ hrm⟩, (h20 dC2 1 hne).1⟩

/-- Claim C7: `merge(*ds)` raises exactly when it is given zero operands or
two operands share an explicit key; on success the explicit mapping of the
result is the union of the operands' mappings and the default is the common
default when all operands agree on it, else `None`. -/
theorem C7_merge_spec (ds : List (NumDict ℚ)) :
    (merge ds = none ↔ ds = [] ∨ ∃ i j : Fin ds.length, i ≠ j ∧
        ∃ k, k ∈ (ds.get i).supp ∧ k ∈ (ds.get j).supp)
    ∧ (∀ r, merge ds = some r →
        (∀ k v, r.map k = some v ↔ ∃ d ∈ ds, d.map k = some v)
        ∧ (∀ df, (∀ d ∈ ds, d.default = df) → r.default = df)
        ∧ ((∃ d ∈ ds, ∃ e ∈ ds, d.default ≠ e.default) → r.default = none)) := by
  constructor
  · rw [merge_eq_none_iff, pairwise_disjoint_iff_no_shared]
  · intro r hr
    rcases merge_some_fields hr with ⟨d0, rest, rfl, hsupp, hmap, hdflt, hpw⟩
    refine ⟨?_, ?_, ?_⟩
    · intro k v
      rw [hmap]
      exact mergeMap_eq_some_iff _ k v hpw
    · intro df hall
      have hcond : ((d0 :: rest).all
          (fun d => decide (d.default = d0.default))) = true := by
        rw [List.all_eq_true]
        intro d hd
        rw [decide_eq_true_eq, hall d hd, hall d0 (List.mem_cons_self _ _)]
      rw [hdflt, if_pos hcond]
      exact hall d0 (List.mem_cons_self _ _)
    · rintro ⟨d, hd, e, he, hne⟩
      have hcond : ¬ (((d0 :: rest).all
          (fun d => decide (d.default = d0.default))) = true) := by
        rw [List.all_eq_true]
        intro hall
        have h1 := hall d hd
        have h2 := hall e he
        rw [decide_eq_true_eq] at h1 h2
        exact hne (h1.trans h2.symm)
      rw [hdflt, if_neg hcond]

/-- Witness for C7: merging the disjoint NumDicts `{0: 1}` and `{1: 2}`
succeeds and keeps the common default `None`. -/
theorem C7_merge_witness :
    ∃ r, merge [singletonND 0 (1 : ℚ), singletonND 1 2] = some r
      ∧ r.default = none := by
  obtain ⟨r, hr, _, _, hdf⟩ := merge_pair (singletonND 0 (1 : ℚ))
    (singletonND 1 2) (Finset.disjoint_left.mpr (by decide))
  refine ⟨r, hr, ?_⟩
  exact ((C7_merge_spec [singletonND 0 (1 : ℚ), singletonND 1 2]).2 r hr).2.1
    none (by intro d hd; rcases List.mem_cons.mp hd with rfl | hd2 <;>
      [rfl; (rcases List.mem_cons.mp hd2 with rfl | hd3 <;>
        [rfl; exact absurd hd3 (List.not_mem_nil d)])])

/-- Claim C9: over NumDicts with pairwise disjoint explicit key sets, `merge`
is commutative, the merged explicit entry count is the sum of the operands'
counts, and `merge` is associative. -/
theorem C9_merge_algebra (a b c : NumDict ℚ)
    (hab : Disjoint a.supp b.supp) (hbc : Disjoint b.supp c.supp)
    (hac : Disjoint a.supp c.supp) :
    merge [a, b] = merge [b, a]
    ∧ (∀ r, merge [a, b] = some r → r.supp.card = a.supp.card + b.supp.card)
    ∧ (∃ ab bc r, merge [a, b] = some ab ∧ merge [b, c] = some bc
        ∧ merge [ab, c] = some r ∧ merge [a, bc] = some r) := by
  obtain ⟨rab, hab1, hab2, hab3, hab4⟩ := merge_pair a b hab
  obtain ⟨rba, hba1, hba2, hba3, hba4⟩ := merge_pair b a hab.symm
  obtain ⟨rbc, hbc1, hbc2, hbc3, hbc4⟩ := merge_pair b c hbc
  have hdisj1 : Disjoint rab.supp c.supp := by
    rw [hab2]
    exact Finset.disjoint_union_left.mpr ⟨hac, hbc⟩
  have hdisj2 : Disjoint a.supp rbc.supp := by
    rw [hbc2]
    exact Finset.disjoint_union_right.mpr ⟨hab, hac⟩
  obtain ⟨r1, h11, h12, h13, h14⟩ := merge_pair rab c hdisj1
  obtain ⟨r2, h21, h22, h23, h24⟩ := merge_pair a rbc hdisj2
  have hmapsBA : rab.map = rba.map := by
    funext k
    rw [hab3 k, hba3 k]
    cases hak : a.map k with
    | some v =>
      have hka : k ∈ a.supp := (a.coh k).mp (by rw [hak]; rfl)
      have hkb : b.map k = none :=
        NumDict.map_eq_none_of_not_mem (Finset.disjoint_left.mp hab hka)
      rw [hkb]
    | none =>
      cases hbk : b.map k with
      | some w => rfl
      | none => rfl
  have hdflBA : rab.default = rba.default := by
    rw [hab4, hba4]
    by_cases h : a.default = b.default
    · rw [if_pos h.symm, if_pos h, h]
    · rw [if_neg (fun hh => h hh.symm), if_neg h]
  have hassocMaps : r2.map = r1.map := by
    funext k
    rw [h23 k, h13 k, hbc3 k, hab3 k]
    cases hck : c.map k with
    | some v => rfl
    | none => rfl
  have hassocDfl : r2.default = r1.default := by
    rw [h24, h14, hbc4, hab4]
    by_cases h1 : b.default = a.default
    · by_cases h2 : c.default = b.default
      · rw [if_pos h2, if_pos h1, if_pos (h2.trans h1)]
      · rw [if_neg h2, if_pos h1,
          if_neg (show ¬ c.default = a.default from
            fun hh => h2 (hh.trans h1.symm))]
        by_cases h4 : (none : Option ℚ) = a.default
        · rw [if_pos h4]
          exact h4.symm
        · rw [if_neg h4]
    · rw [if_neg h1]
      have hr : (if c.default = (none : Option ℚ) then (none : Option ℚ)
          else none) = none := by
        by_cases hcn : c.default = (none : Option ℚ) <;> simp [hcn]
      rw [hr]
      by_cases h2 : c.default = b.default
      · rw [if_pos h2, if_neg h1]
      · rw [if_neg h2]
        by_cases h4 : (none : Option ℚ) = a.default
        · rw [if_pos h4]
          exact h4.symm
        · rw [if_neg h4]
  refine ⟨?_, ?_, rab, rbc, r1, hab1, hbc1, h11, ?_⟩
  · rw [hab1, hba1, NumDict.ext_nd hmapsBA hdflBA]
  · intro r hr
    rw [hab1] at hr
    have hr2 := Option.some.inj hr
    rw [← hr2, hab2, Finset.card_union_of_disjoint hab]
  · rw [h21, NumDict.ext_nd hassocMaps hassocDfl]

/-- Witness for C9 at the concrete disjoint NumDicts `{0: 1}`, `{1: 2}`,
`{2: 3}`. -/
theorem C9_merge_witness :
    merge [singletonND 0 (1 : ℚ), singletonND 1 2]
      = merge [singletonND 1 (2 : ℚ), singletonND 0 1] :=
  (C9_merge_algebra (singletonND 0 (1 : ℚ)) (singletonND 1 2) (singletonND 2 3)
    (Finset.disjoint_left.mpr (by decide))
    (Finset.disjoint_left.mpr (by decide))
    (Finset.disjoint_left.mpr (by decide))).1

/-- Claim C8: for every `func` injective on `d`'s explicit key set and `g`
inverse to `func` on that key set, `transform_keys(transform_keys(d, func), g)`
reproduces `d`'s explicit mapping exactly. -/
theorem C8_transform_keys_roundtrip (d : NumDict ℚ) (f g : ℕ → ℕ)
    (hinj : Set.InjOn f d.supp) (hg : ∀ k ∈ d.supp, g (f k) = k) :
    ∃ r1 r2, transform_keys d f = some r1 ∧ transform_keys r1 g = some r2
      ∧ r2.supp = d.supp ∧ ∀ k, r2.map k = d.map k := by
  have hcard1 : d.supp.card = (d.supp.image f).card :=
    (Finset.card_image_of_injOn hinj).symm
  have h1 : transform_keys d f = some (transformed d f) := by
    rw [transform_keys, if_neg (not_ne_iff.mpr hcard1)]
  have himg : (d.supp.image f).image g = d.supp := by
    rw [Finset.image_image]
    have heq : Set.EqOn (g ∘ f) id d.supp := fun x hx => hg x hx
    rw [Finset.image_congr heq, Finset.image_id]
  have hinjg : Set.InjOn g ((transformed d f).supp : Set ℕ) := by
    intro x hx y hy hxy
    rw [transformed_supp, Finset.coe_image] at hx hy
    rcases hx with ⟨a, ha, rfl⟩
    rcases hy with ⟨b, hb, rfl⟩
    rw [hg a ha, hg b hb] at hxy
    rw [hxy]
  have hcard2 : (transformed d f).supp.card =
      ((transformed d f).supp.image g).card := by
    rw [transformed_supp, himg, ← hcard1]
  have h2 : transform_keys (transformed d f) g
      = some (transformed (transformed d f) g) := by
    rw [transform_keys, if_neg (not_ne_iff.mpr hcard2)]
  refine ⟨transformed d f, transformed (transformed d f) g, h1, h2, ?_, ?_⟩
  · rw [transformed_supp, transformed_supp, himg]
  · intro k
    by_cases hk : k ∈ d.supp
    · have hfk : f k ∈ (transformed d f).supp := by
        rw [transformed_supp]
        exact Finset.mem_image_of_mem f hk
      have step2 := transformed_map_image (transformed d f) g hinjg hfk
      rw [hg k hk] at step2
      rw [step2]
      exact transformed_map_image d f hinj hk
    · have hs : (transformed (transformed d f) g).supp = d.supp := by
        rw [transformed_supp, transformed_supp, himg]
      have hnone1 : (transformed (transformed d f) g).map k = none := by
        apply NumDict.map_eq_none_of_not_mem
        rw [hs]
        exact hk
      rw [hnone1, NumDict.map_eq_none_of_not_mem hk]

/-- The concrete NumDict `{0: 5}` used in the witness of claim C8. -/
def dC8 : NumDict ℚ := NumDict.ofFun {0} (fun _ => 5) none

/-- Witness for C8 at `d = {0: 5}`, `func = (+1)`, `g = (-1)`. -/
theorem C8_transform_keys_witness :
    ∃ r1 r2, transform_keys dC8 (fun k => k + 1) = some r1
      ∧ transform_keys r1 (fun k => k - 1) = some r2 ∧ r2.supp = dC8.supp := by
  have hinj : Set.InjOn (fun k => k + 1) (dC8.supp : Set ℕ) := by
    intro a ha b hb hfe
    simpa using hfe
  have hg : ∀ k ∈ dC8.supp, (fun k => k - 1) ((fun k => k + 1) k) = k := by
    intro k hk
    simp
  obtain ⟨r1, r2, h1, h2, h3, _⟩ :=
    C8_transform_keys_roundtrip dC8 (fun k => k + 1) (fun k => k - 1) hinj hg
  exact ⟨r1, r2, h1, h2, h3⟩

theorem withDefault_val (d : NumDict V) (x : Option V) (k : ℕ) :
    (withDefault d x).val k = d.val k := rfl

theorem withDefault_supp (d : NumDict V) (x : Option V) :
    (withDefault d x).supp = d.supp := rfl

/-- Dividing by a positive temperature commutes with taking the maximum of the
values, so the maximum subtracted by `boltzmann` equals the maximum of `d`'s
values divided by `t`. -/
theorem maxValue_scalarMap_div (d : NumDict ℝ) (t : ℝ) (ht : 0 < t)
    (h : d.supp.Nonempty) :
    maxValue (d.scalarMap (fun v => v / t)) h = maxValue d h / t := by
  show d.supp.sup' h (d.scalarMap (fun v => v / t)).val
    = d.supp.sup' h d.val / t
  rw [Finset.sup'_congr h rfl
    (fun k hk => NumDict.scalarMap_val_of_mem d (fun v => v / t) hk)]
  apply le_antisymm
  · apply Finset.sup'_le
    intro k hk
    exact (div_le_div_right ht).mpr (Finset.le_sup' d.val hk)
  · obtain ⟨k0, hk0, hmax⟩ := Finset.exists_mem_eq_sup' h d.val
    rw [hmax]
    exact Finset.le_sup' (fun k => d.val k / t) hk0

/-- The value of `boltzmann d t` at an explicit key of a nonempty `d`,
unfolding the composition of the elementwise operations in ops.py
lines 258–262. -/
theorem boltzmann_val (d : NumDict ℝ) (t : ℝ) (h : d.supp.Nonempty) {k : ℕ}
    (hk : k ∈ d.supp) :
    (boltzmann d t).val k =
      Real.exp (d.val k / t - maxValue (d.scalarMap (fun v => v / t)) h) /
        ∑ j in d.supp, Real.exp (d.val j / t -
          maxValue (d.scalarMap (fun v => v / t)) h) := by
  simp only [boltzmann]
  rw [dif_pos h]
  have h1 : ∀ j ∈ d.supp, (((d.scalarMap (fun v => v / t)).scalarMap
      (fun v => v - maxValue (d.scalarMap (fun v => v / t)) h)).scalarMap
      Real.exp).val j
      = Real.exp (d.val j / t - maxValue (d.scalarMap (fun v => v / t)) h) := by
    intro j hj
    have hj2 : j ∈ ((d.scalarMap (fun v => v / t)).scalarMap
        (fun v => v - maxValue (d.scalarMap (fun v => v / t)) h)).supp := hj
    have hj3 : j ∈ (d.scalarMap (fun v => v / t)).supp := hj
    rw [NumDict.scalarMap_val_of_mem _ Real.exp hj2,
      NumDict.scalarMap_val_of_mem _ _ hj3,
      NumDict.scalarMap_val_of_mem _ _ hj]
  have hS : sumValue (((d.scalarMap (fun v => v / t)).scalarMap
      (fun v => v - maxValue (d.scalarMap (fun v => v / t)) h)).scalarMap
      Real.exp)
      = ∑ j in d.supp, Real.exp (d.val j / t -
          maxValue (d.scalarMap (fun v => v / t)) h) := by
    show ∑ j in (((d.scalarMap (fun v => v / t)).scalarMap
      (fun v => v - maxValue (d.scalarMap (fun v => v / t)) h)).scalarMap
      Real.exp).supp, (((d.scalarMap (fun v => v / t)).scalarMap
      (fun v => v - maxValue (d.scalarMap (fun v => v / t)) h)).scalarMap
      Real.exp).val j = _
    rw [NumDict.scalarMap_supp, NumDict.scalarMap_supp, NumDict.scalarMap_supp]
    exact Finset.sum_congr rfl h1
  have hkN : k ∈ (((d.scalarMap (fun v => v / t)).scalarMap
      (fun v => v - maxValue (d.scalarMap (fun v => v / t)) h)).scalarMap
      Real.exp).supp := hk
  rw [withDefault_val, NumDict.scalarMap_val_of_mem _ _ hkN, h1 k hk, hS]

/-- Claim C4: for nonempty `d` and `t > 0`, `boltzmann(d, t)` has exactly
`d`'s explicit keys, each value equals
`exp(d[k]/t - m) / sum_j exp(d[j]/t - m)` with `m` the maximum of `d`'s values
divided by `t`, and the explicit values sum to `1` (exactly, in real
arithmetic, hence approximately in the claim's sense). -/
theorem C4_boltzmann_spec (d : NumDict ℝ) (t : ℝ) (h : d.supp.Nonempty)
    (ht : 0 < t) :
    (boltzmann d t).supp = d.supp
    ∧ (∀ k ∈ d.supp, (boltzmann d t).val k =
        Real.exp (d.val k / t - maxValue d h / t) /
          ∑ j in d.supp, Real.exp (d.val j / t - maxValue d h / t))
    ∧ ∑ k in d.supp, (boltzmann d t).val k = 1 := by
  have hmdiv := maxValue_scalarMap_div d t ht h
  have hpos : 0 < ∑ j in d.supp, Real.exp (d.val j / t -
      maxValue (d.scalarMap (fun v => v / t)) h) :=
    Finset.sum_pos (fun j hj => Real.exp_pos _) h
  refine ⟨?_, ?_, ?_⟩
  · simp only [boltzmann]
    rw [dif_pos h]
    rfl
  · intro k hk
    rw [boltzmann_val d t h hk, hmdiv]
  · rw [Finset.sum_congr rfl (fun k hk => boltzmann_val d t h hk),
      ← Finset.sum_div]
    exact div_self (ne_of_gt hpos)

/-- The concrete single-entry NumDict `{0: 1}` over the reals, for the witness
of claim C4. -/
noncomputable def dC4 : NumDict ℝ := NumDict.ofFun {0} (fun _ => 1) none

/-- Witness for C4 at `d = {0: 1}` and temperature `t = 1`. -/
theorem C4_boltzmann_witness :
    (boltzmann dC4 1).supp = dC4.supp
    ∧ ∑ k in dC4.supp, (boltzmann dC4 1).val k = 1 :=
  ⟨(C4_boltzmann_spec dC4 1 ⟨0, Finset.mem_singleton_self 0⟩ one_pos).1,
   (C4_boltzmann_spec dC4 1 ⟨0, Finset.mem_singleton_self 0⟩ one_pos).2.2⟩

end PyClarion
